import Mathlib

/-!
Verification of the FileManager repository: a shallow embedding in Lean 4 of
the two Python source files (`src/services/api/process_file.py`, the CLI, and
`src/services/api/src/process_file.py`, the FastAPI HTTP surface), together
with theorems settling the specification claims.

Modelling conventions:
- Byte strings are `List Nat` with each element a byte value.
- Filesystem paths are POSIX style. A parsed path is a `PurePath` (absolute
  flag plus components); the filesystem itself is an abstract `FS` record of
  predicates keyed on resolved component lists, mirroring the stat calls the
  code makes. The directory-tree model used for recursive discovery is the
  inductive `Entry`.
- Python exceptions raised by `open`/read are modelled by `ReadOutcome`
  (successful byte read, `IOError`, other exception), matching the
  `try/except IOError/except Exception` structure of the code.
- String helpers (splitting, joining, percent decoding) are written as
  structural recursions over `List Char` so that every definition evaluates
  inside the kernel.
-/

/-- The allow-list of supported extensions, from `SUPPORTED_EXTENSIONS` in the
source (a Python set of lowercase, dot-free strings; modelled as a list with
`contains` as the membership test). -/
def SUPPORTED_EXTENSIONS : List String :=
  ["pdf", "docx", "doc", "rtf", "odt", "txt", "md",
   "pptx", "ppt", "xlsx", "xls", "csv", "py", "sql",
   "js", "ts", "cs", "java", "go", "sh", "ps1",
   "json", "xml", "yaml", "yml", "toml", "html", "htm",
   "eml", "msg", "vtt", "srt"]

/-! ## Extension classification

Both surfaces compute the extension of a path by the expression
`input_path.suffix.lstrip(".").lower()`. We model the CPython implementation
of `PurePath.suffix` faithfully: `i = name.rfind(".")`, and the suffix is
`name[i:]` when `0 < i < len(name) - 1`, else the empty string. -/

/-- Index of the last occurrence of the dot character, or -1 when absent;
models the Python expression `name.rfind(".")`. -/
def rfindDot : List Char → Int
  | [] => -1
  | c :: rest =>
      let j := rfindDot rest
      if j ≥ 0 then j + 1 else if c == '.' then 0 else -1

/-- Models CPython `PurePath.suffix` on the final path component `name`:
`name[i:]` when `0 < i < len(name) - 1` for `i = name.rfind(".")`, else
the empty string. -/
def pathSuffix (name : List Char) : List Char :=
  let i := rfindDot name
  if 0 < i ∧ i < (name.length : Int) - 1 then name.drop i.toNat else []

/-- Models the Python `.lstrip(".")` call: drop all leading dots. -/
def lstripDots (cs : List Char) : List Char := cs.dropWhile (fun c => c == '.')

/-- The raw (case-preserving) extension of a file name:
`name.suffix.lstrip(".")` before the final `.lower()` call. -/
def rawExtOf (name : List Char) : List Char := lstripDots (pathSuffix name)

/-- The classified extension of a file name, exactly the source expression
`input_path.suffix.lstrip(".").lower()` (Python `str.lower` is modelled as
character-wise `Char.toLower`, which agrees on ASCII). -/
def fileExtensionOf (name : List Char) : List Char := (rawExtOf name).map Char.toLower

/-- String-level wrapper for `fileExtensionOf`. -/
def fileExtension (name : String) : String := String.mk (fileExtensionOf name.data)

/-! ### Specification-side extension classification (for the refinement claim)

The spec states the contract in different words; this definition follows the
words of the spec, to be compared with the source-derived `fileExtensionOf`. -/

/-- The characters after the final dot of a name, read off the spec text
("the substring after the final . in the file name"). -/
def afterFinalDot (cs : List Char) : List Char :=
  (cs.reverse.takeWhile (fun c => c != '.')).reverse

/-- Modelled from the spec words for §4.2 Extension Classification: return the
substring after the final dot, lowercased; if no dot exists, or the name
starts with a dot and has no further dot, return the empty string. -/
def extSpec (cs : List Char) : List Char :=
  if !(cs.contains '.') then []
  else if (match cs with | '.' :: t => !(t.contains '.') | _ => false) then []
  else (afterFinalDot cs).map Char.toLower

/-! ## Path model

POSIX-style `pathlib` behaviour: parsing splits on slashes, drops empty
components and single-dot components, keeps double-dot components;
`resolve()` (with no symbolic links in the model) makes the path absolute
against the working directory and eliminates double-dot components
lexically, never going above the root. -/

/-- Split a character list on slash characters, producing the raw components
as strings. -/
def splitOnSlashAux (cur : List Char) : List Char → List String
  | [] => [String.mk cur.reverse]
  | '/' :: rest => String.mk cur.reverse :: splitOnSlashAux [] rest
  | c :: rest => splitOnSlashAux (c :: cur) rest

/-- A parsed path: whether it is absolute, and its components (empty and
single-dot components removed, as `pathlib.PurePath` does). -/
structure PurePath where
  absolute : Bool
  parts : List String

/-- Models `pathlib.Path(s)` for a POSIX path string. -/
def parsePath (s : String) : PurePath :=
  { absolute := match s.data with | '/' :: _ => true | _ => false,
    parts := (splitOnSlashAux [] s.data).filter
      (fun c => decide (c ≠ "" ∧ c ≠ ".")) }

/-- Join components with slashes. -/
def joinSlash : List String → String
  | [] => ""
  | [p] => p
  | p :: rest => p ++ "/" ++ joinSlash rest

/-- Models `str(path)` for a parsed path. -/
def PurePath.toStr (p : PurePath) : String :=
  match p.absolute, p.parts with
  | true, [] => "/"
  | true, ps => "/" ++ joinSlash ps
  | false, [] => "."
  | false, ps => joinSlash ps

/-- The final component of the path, as in `path.name` (empty for the root). -/
def PurePath.nameOf (p : PurePath) : String := p.parts.getLastD ("")

/-- Models `path.resolve()` in a symlink-free filesystem: absolute against the
working directory `cwd`, with double-dot components popping the previous
component (and ignored at the root, as on POSIX). -/
def resolveParts (cwd : List String) (p : PurePath) : List String :=
  p.parts.foldl
    (fun acc c => if c == ".." then acc.dropLast else acc ++ [c])
    (if p.absolute then [] else cwd)

/-- Models `str(...)` of a resolved (absolute) component list. -/
def absStr : List String → String
  | [] => "/"
  | ps => "/" ++ joinSlash ps

/-- Models the Python expression `".." in s`: whether two consecutive dots
occur in the character list. -/
def hasDotDot : List Char → Bool
  | '.' :: '.' :: _ => true
  | _ :: rest => hasDotDot rest
  | [] => false

/-- String-level wrapper for `hasDotDot`. -/
def hasDotDotS (s : String) : Bool := hasDotDot s.data

/-! ## Percent decoding

Models `urllib.parse.unquote` for ASCII input: every valid `%XX` pair is
replaced by the character with code `XX`; invalid escapes are kept verbatim.
(Multi-byte UTF-8 percent sequences are outside the model; all claims concern
ASCII paths.) -/

/-- The value of one hexadecimal digit character, if any. -/
def hexDigitVal (c : Char) : Option Nat :=
  if '0' ≤ c ∧ c ≤ '9' then some (c.toNat - '0'.toNat)
  else if 'a' ≤ c ∧ c ≤ 'f' then some (c.toNat - 'a'.toNat + 10)
  else if 'A' ≤ c ∧ c ≤ 'F' then some (c.toNat - 'A'.toNat + 10)
  else none

/-- Character-level percent decoding. -/
def unquoteAux : List Char → List Char
  | '%' :: a :: b :: rest =>
      match hexDigitVal a, hexDigitVal b with
      | some x, some y => Char.ofNat (16 * x + y) :: unquoteAux rest
      | _, _ => '%' :: unquoteAux (a :: b :: rest)
  | c :: rest => c :: unquoteAux rest
  | [] => []

/-- Models `urllib.parse.unquote` (ASCII fragment). -/
def unquote (s : String) : String := String.mk (unquoteAux s.data)

/-! ## SHA-256

Models `hashlib.file_digest(f, "sha256").hexdigest()`: SHA-256 over the full
byte content of the file, hex encoded in lowercase. Machine words are `Nat`
taken modulo 2^32 at every operation that can overflow. -/

/-- The word modulus 2^32. -/
def m32 : Nat := 4294967296

/-- Addition modulo 2^32. -/
def add32 (a b : Nat) : Nat := (a + b) % m32

/-- Right rotation of a 32-bit word by `n` bits. -/
def rotr32 (n x : Nat) : Nat := ((x >>> n) ||| (x <<< (32 - n))) % m32

/-- SHA-256 small sigma 0. -/
def ssig0 (x : Nat) : Nat := rotr32 7 x ^^^ rotr32 18 x ^^^ (x >>> 3)

/-- SHA-256 small sigma 1. -/
def ssig1 (x : Nat) : Nat := rotr32 17 x ^^^ rotr32 19 x ^^^ (x >>> 10)

/-- SHA-256 big sigma 0. -/
def bsig0 (x : Nat) : Nat := rotr32 2 x ^^^ rotr32 13 x ^^^ rotr32 22 x

/-- SHA-256 big sigma 1. -/
def bsig1 (x : Nat) : Nat := rotr32 6 x ^^^ rotr32 11 x ^^^ rotr32 25 x

/-- SHA-256 choice function. -/
def sha2ch (x y z : Nat) : Nat := (x &&& y) ^^^ ((m32 - 1 - x % m32) &&& z)

/-- SHA-256 majority function. -/
def sha2maj (x y z : Nat) : Nat := (x &&& y) ^^^ (x &&& z) ^^^ (y &&& z)

/-- The 64 SHA-256 round constants. -/
def sha2K : List Nat :=
  [1116352408, 1899447441, 3049323471, 3921009573, 961987163,
   1508970993, 2453635748, 2870763221, 3624381080, 310598401,
   607225278, 1426881987, 1925078388, 2162078206, 2614888103,
   3248222580, 3835390401, 4022224774, 264347078, 604807628,
   770255983, 1249150122, 1555081692, 1996064986, 2554220882,
   2821834349, 2952996808, 3210313671, 3336571891, 3584528711,
   113926993, 338241895, 666307205, 773529912, 1294757372,
   1396182291, 1695183700, 1986661051, 2177026350, 2456956037,
   2730485921, 2820302411, 3259730800, 3345764771, 3516065817,
   3600352804, 4094571909, 275423344, 430227734, 506948616,
   659060556, 883997877, 958139571, 1322822218, 1537002063,
   1747873779, 1955562222, 2024104815, 2227730452, 2361852424,
   2428436474, 2756734187, 3204031479, 3329325298]

/-- The SHA-256 working state: eight 32-bit words. -/
structure Sha256State where
  a : Nat
  b : Nat
  c : Nat
  d : Nat
  e : Nat
  f : Nat
  g : Nat
  h : Nat

/-- The SHA-256 initial hash value. -/
def sha2H0 : Sha256State :=
  ⟨1779033703, 3144134277, 1013904242, 2773480762,
   1359893119, 2600822924, 528734635, 1541459225⟩

/-- One SHA-256 compression round; `kw` is the sum of the round constant and
the schedule word. -/
def sha2Round (s : Sha256State) (kw : Nat) : Sha256State :=
  let t1 := (s.h + bsig1 s.e + sha2ch s.e s.f s.g + kw) % m32
  let t2 := (bsig0 s.a + sha2maj s.a s.b s.c) % m32
  ⟨(t1 + t2) % m32, s.a, s.b, s.c, (s.d + t1) % m32, s.e, s.f, s.g⟩

/-- Big-endian packing of bytes into 32-bit words. -/
def bytesToWords : List Nat → List Nat
  | b0 :: b1 :: b2 :: b3 :: rest =>
      ((b0 <<< 24) + (b1 <<< 16) + (b2 <<< 8) + b3) :: bytesToWords rest
  | _ => []

/-- Extend the 16 schedule words by `n` further words. -/
def schedExtend (w : List Nat) : Nat → List Nat
  | 0 => w
  | n + 1 =>
      schedExtend
        (w ++ [(ssig1 (w.getD (w.length - 2) 0) + w.getD (w.length - 7) 0 +
                ssig0 (w.getD (w.length - 15) 0) + w.getD (w.length - 16) 0) % m32]) n

/-- Compress one 64-byte block into the running state. -/
def sha2Compress (s : Sha256State) (block : List Nat) : Sha256State :=
  let w := schedExtend (bytesToWords block) 48
  let t := (sha2K.zip w).foldl (fun st p => sha2Round st ((p.1 + p.2) % m32)) s
  ⟨add32 s.a t.a, add32 s.b t.b, add32 s.c t.c, add32 s.d t.d,
   add32 s.e t.e, add32 s.f t.f, add32 s.g t.g, add32 s.h t.h⟩

/-- Big-endian bytes of a Nat, `n` bytes wide. -/
def natToBytesBE (v : Nat) : Nat → List Nat
  | 0 => []
  | n + 1 => (v >>> (8 * n)) % 256 :: natToBytesBE v n

/-- SHA-256 message padding: append a 0x80 byte, zeros to 56 mod 64, and the
bit length as an 8-byte big-endian integer. -/
def padMessage (m : List Nat) : List Nat :=
  m ++ [128] ++ List.replicate ((119 - m.length % 64) % 64) 0 ++ natToBytesBE (8 * m.length) 8

/-- Split a byte list into 64-byte blocks. -/
def chunks64 : List Nat → List (List Nat)
  | [] => []
  | b :: rest => ((b :: rest).take 64) :: chunks64 ((b :: rest).drop 64)
termination_by l => l.length
decreasing_by simp; omega

/-- Big-endian bytes of one 32-bit word. -/
def wordBytes (w : Nat) : List Nat :=
  [(w >>> 24) % 256, (w >>> 16) % 256, (w >>> 8) % 256, w % 256]

/-- The SHA-256 digest of a byte string, as 32 bytes. -/
def sha256bytes (m : List Nat) : List Nat :=
  let s := (chunks64 (padMessage m)).foldl sha2Compress sha2H0
  wordBytes s.a ++ wordBytes s.b ++ wordBytes s.c ++ wordBytes s.d ++
  wordBytes s.e ++ wordBytes s.f ++ wordBytes s.g ++ wordBytes s.h

/-- The sixteen lowercase hexadecimal digit characters. -/
def hexDigits : List Char := ("0123456789abcdef").data

/-- The lowercase hexadecimal digit for a nibble. -/
def hexChar (n : Nat) : Char := hexDigits.getD n '0'

/-- Lowercase hex encoding of a byte list, two characters per byte. -/
def hexOfBytes : List Nat → List Char
  | [] => []
  | b :: rest => hexChar (b / 16) :: hexChar (b % 16) :: hexOfBytes rest

/-- Models `hashlib.file_digest(f, "sha256").hexdigest()` as a function of the
byte content read from the file. -/
def sha256hex (m : List Nat) : String := String.mk (hexOfBytes (sha256bytes m))

/-- Whether a character is a lowercase hexadecimal digit. -/
def isLowerHexDigit (c : Char) : Bool := decide (c ∈ hexDigits)

/-! ## Reading files and hashing -/

/-- The outcome of opening and fully reading a file in binary mode, mirroring
the `try / except IOError / except Exception` structure of the code. -/
inductive ReadOutcome where
  | ok (bytes : List Nat)
  | ioError (msg : String)
  | otherError (msg : String)
deriving DecidableEq

/-- The line printed on a successful hash, from
`f"File: '{p}'\n  Hash: {hashed_content}\n"`. -/
def hashLine (p digest : String) : String :=
  "File: '" ++ p ++ "'\n  Hash: " ++ digest ++ "\n"

/-- The line printed when an `IOError` is caught. -/
def ioErrorLine (p e : String) : String :=
  "\x1b[91mError processing '" ++ p ++ "': " ++ e ++ "\x1b[0m"

/-- The line printed when any other exception is caught. -/
def unexpectedLine (p e : String) : String :=
  "\x1b[91mAn unexpected error occurred with '" ++ p ++ "': " ++ e ++ "\x1b[0m"

/-- One iteration of the hashing loop in the CLI `main` (lines 88 to 96):
open the file in binary mode and hash it, catching `IOError` and any other
exception, and in every case produce exactly one printed line. `read` maps a
path string to the outcome of opening and reading it. -/
def processOneFile (read : String → ReadOutcome) (p : String) : String :=
  match read p with
  | .ok bytes => hashLine p (sha256hex bytes)
  | .ioError e => ioErrorLine p e
  | .otherError e => unexpectedLine p e

/-- The batch hashing loop of the CLI `main`: process every collected file in
order, one printed line per file. -/
def mainHashLoop (read : String → ReadOutcome) (files : List String) : List String :=
  files.map (processOneFile read)

/-- Models the `hash_file` function of the HTTP source file (lines 157 to
165): declared to return `str`, it hashes the file and prints, catching both
exception classes, and falls off the end of the function in every branch, so
the returned value (the first projection) is the Python `None`, modelled as
`none`. The second projection is the list of printed lines. -/
def hash_file (read : List String → ReadOutcome) (p : List String) :
    Option String × List String :=
  match read p with
  | .ok bytes => (none, [hashLine (absStr p) (sha256hex bytes)])
  | .ioError e => (none, [ioErrorLine (absStr p) e])
  | .otherError e => (none, [unexpectedLine (absStr p) e])

/-! ## The abstract filesystem seen by the HTTP endpoints

The endpoints interrogate the filesystem through `exists()`, `is_file()`,
`is_dir()`, `open` for reading, and `rglob` based discovery. The record
abstracts those calls, keyed on resolved absolute component lists. -/

/-- The filesystem and process context of one HTTP request. -/
structure FS where
  cwd : List String
  pathExists : List String → Bool
  is_file : List String → Bool
  is_dir : List String → Bool
  read : List String → ReadOutcome
  previewRead : List String → Except String String
  allFound : List String → List (List String)

/-- The result of one request to an endpoint: a 200 JSON message, or an
`HTTPException` with a status code and detail. -/
inductive HTTPResult where
  | ok (message : String)
  | httpError (status : Nat) (detail : String)
deriving DecidableEq

/-- Join strings with a comma and a space, as `", ".join(...)` does. -/
def joinCommaSpace : List String → String
  | [] => ""
  | [p] => p
  | p :: rest => p ++ ", " ++ joinCommaSpace rest

/-- Joined list of supported extensions as printed in the 400 detail of
`process_file` (the Python set iteration order is unspecified; the model uses
the textual order of the source). -/
def supportedJoined : String := joinCommaSpace SUPPORTED_EXTENSIONS

/-- Models the `GET /process-file/` endpoint (`process_file`, lines 39 to
121): percent decode the query value, build the path, reject when the
resolved path string contains two consecutive dots, then check existence,
then classify as file / directory / neither, validating the extension and
reading a preview for files. -/
def process_file (fs : FS) (file_path : String) : HTTPResult :=
  let decoded := unquote file_path
  let input_path := parsePath decoded
  let resolved := resolveParts fs.cwd input_path
  if hasDotDotS (absStr resolved) then
    .httpError 400 ("Invalid file path provided. Directory traversal detected.")
  else if !(fs.pathExists resolved) then
    .httpError 404 ("Error: Path not found at: '" ++ input_path.toStr ++ "'")
  else if fs.is_file resolved then
    let file_ext := fileExtension input_path.nameOf
    if SUPPORTED_EXTENSIONS.contains file_ext then
      match fs.previewRead resolved with
      | .ok _ =>
          .ok ("File '" ++ input_path.nameOf ++ "' (type: '" ++ file_ext ++
               "') processed successfully.")
      | .error e =>
          .httpError 500 ("Error processing file '" ++ input_path.nameOf ++ "': " ++ e)
    else
      .httpError 400 ("Error: File type '" ++ file_ext ++
        "' not supported for single file processing. Supported types: " ++ supportedJoined)
  else if fs.is_dir resolved then
    .httpError 400 ("'" ++ input_path.toStr ++
      "' is a directory. Use the '/process-folder' endpoint for folders.")
  else
    .httpError 400 ("Error: Input path '" ++ input_path.toStr ++
      "' is not a valid file or directory type.")

/-! ## The `/process-folder` endpoint

In the source, the directory branch declares `files_to_process:
pathlib.Path` with an annotation only — the local name is never bound, so the
first use of it raises `UnboundLocalError`, which escapes the endpoint. The
model threads the unbound local as an `Option` that starts as `none`, with
every use of the unbound value producing the error. -/

/-- The error text of the uncaught exception raised by using the never-bound
local `files_to_process`. -/
def unboundErr : String :=
  "UnboundLocalError: cannot access local variable files_to_process"

/-- The Python value returned by one call to `process_folder`, or the
uncaught exception that escaped it. -/
inductive FolderResult where
  | retNone
  | retEmptyDict
  | retMessage (m : String)
  | raised (err : String)
deriving DecidableEq

/-- The filter loop of the directory branch of `process_folder` (lines 142
to 148): for every discovered file whose extension is supported, append it
to `files_to_process`; appending to the never-bound local raises. -/
def folderAccumLoop (acc : Option (List (List String))) :
    List (List String) → Except String (Option (List (List String)))
  | [] => Except.ok acc
  | f :: rest =>
      if SUPPORTED_EXTENSIONS.contains (fileExtension (f.getLastD (""))) then
        match acc with
        | none => Except.error unboundErr
        | some l => folderAccumLoop (some (l ++ [f])) rest
      else folderAccumLoop acc rest

/-- Models the `GET /process-folder` endpoint (`process_folder`, lines 122
to 155): no decoding and no traversal guard; a missing path returns `None`
with no `HTTPException`; a regular file returns the empty dict; a directory
runs discovery, then the filter loop over the unbound accumulator, then the
hashing loop over the same unbound local. -/
def process_folder (fs : FS) (folder_path : String) : FolderResult :=
  let rp := resolveParts fs.cwd (parsePath folder_path)
  if !(fs.pathExists rp) then .retNone
  else if fs.is_file rp then .retEmptyDict
  else if fs.is_dir rp then
    match folderAccumLoop none (fs.allFound rp) with
    | .error e => .raised e
    | .ok none => .raised unboundErr
    | .ok (some files) =>
        let _printed := files.flatMap (fun f => (hash_file fs.read f).2)
        .retMessage ("Processing folder at: " ++ folder_path)
  else .retNone

/-! ## Directory trees and recursive discovery

`get_all_files_recursive` iterates `root.rglob("*")` — every entry reachable
by recursive descent from the root directory — and keeps those for which
`is_file()` holds. The tree is modelled inductively: regular files with byte
content, directories with child entries, and other entries (devices, broken
symbolic links) that are neither. -/

/-- One filesystem entry. -/
inductive Entry where
  | file (name : String) (content : List Nat)
  | dir (name : String) (entries : List Entry)
  | other (name : String)

/-- The name of an entry. -/
def Entry.name : Entry → String
  | .file n _ => n
  | .dir n _ => n
  | .other n => n

/-- Whether an entry is a regular file, as `p.is_file()` reports. -/
def Entry.isFile : Entry → Bool
  | .file _ _ => true
  | _ => false

/-- Models `root.rglob("*")` for a directory with child entries `es` at path
`pfx`: every transitively contained entry, paired with its path. -/
def rglobList (pfx : List String) : List Entry → List (List String × Entry)
  | [] => []
  | .file n c :: rest => (pfx ++ [n], .file n c) :: rglobList pfx rest
  | .other n :: rest => (pfx ++ [n], .other n) :: rglobList pfx rest
  | .dir n es :: rest =>
      (pfx ++ [n], .dir n es) :: (rglobList (pfx ++ [n]) es ++ rglobList pfx rest)

/-- Models `get_all_files_recursive` (both source files, identical): iterate
`rglob("*")` and collect the paths of the entries that are regular files. -/
def get_all_files_recursive (pfx : List String) (es : List Entry) : List (List String) :=
  ((rglobList pfx es).filter (fun pe => pe.2.isFile)).map Prod.fst

/-- Well-formedness of a level of a directory tree: sibling names are
pairwise distinct, recursively (true of every real directory). -/
def wfEntries : List Entry → Bool
  | [] => true
  | .file n _ :: rest => !((rest.map Entry.name).contains n) && wfEntries rest
  | .other n :: rest => !((rest.map Entry.name).contains n) && wfEntries rest
  | .dir n es :: rest =>
      !((rest.map Entry.name).contains n) && wfEntries es && wfEntries rest

/-- A descendant of a directory level: `Desc pfx es p e` holds when entry `e`
sits at path `p` somewhere transitively inside the level `es` rooted at path
`pfx`. -/
inductive Desc : List String → List Entry → List String → Entry → Prop where
  | head {pfx : List String} {e : Entry} {rest : List Entry} :
      Desc pfx (e :: rest) (pfx ++ [e.name]) e
  | tail {pfx : List String} {e : Entry} {rest : List Entry} {p : List String} {d : Entry} :
      Desc pfx rest p d → Desc pfx (e :: rest) p d
  | child {pfx : List String} {n : String} {es rest : List Entry} {p : List String} {d : Entry} :
      Desc (pfx ++ [n]) es p d → Desc pfx (Entry.dir n es :: rest) p d

/-- The specification notion for discovery: `p` is the path of a regular file
transitively reachable from the directory level `es` rooted at `pfx`. -/
def IsReachableFile (pfx : List String) (es : List Entry) (p : List String) : Prop :=
  ∃ n c, Desc pfx es p (Entry.file n c)

/-! ## Helper lemmas about the folder accumulation loop -/

/-- Starting from the unbound accumulator, the filter loop either raises on
the first supported file or completes with the accumulator still unbound. -/
theorem folderAccumLoop_none (l : List (List String)) :
    folderAccumLoop none l = Except.error unboundErr ∨
      folderAccumLoop none l = Except.ok none := by
  induction l with
  | nil => right; rfl
  | cons f rest ih =>
      have unf : folderAccumLoop none (f :: rest) =
          if SUPPORTED_EXTENSIONS.contains (fileExtension (f.getLastD (""))) then
            Except.error unboundErr
          else folderAccumLoop none rest := rfl
      by_cases h : SUPPORTED_EXTENSIONS.contains (fileExtension (f.getLastD (""))) = true
      · left; rw [unf, if_pos h]
      · rw [unf, if_neg h]; exact ih

/-! ## Concrete fixtures used by witnesses and counterexamples -/

/-- A read map for the CLI witness: one path fails with an `IOError`, the
rest read successfully. -/
def cliReadW : String → ReadOutcome :=
  fun p => if p == "bad.pdf" then ReadOutcome.ioError ("disk error") else ReadOutcome.ok [97]

/-- A filesystem with nothing in it. -/
def fsEmpty : FS :=
  { cwd := [],
    pathExists := fun _ => false,
    is_file := fun _ => false,
    is_dir := fun _ => false,
    read := fun _ => ReadOutcome.ioError (""),
    previewRead := fun _ => Except.error (""),
    allFound := fun _ => [] }

/-- A filesystem holding the single regular file `/docs/report.pdf`, whose
preview read succeeds. -/
def fsReport : FS :=
  { cwd := [],
    pathExists := fun p => p == ["docs", "report.pdf"],
    is_file := fun p => p == ["docs", "report.pdf"],
    is_dir := fun _ => false,
    read := fun _ => ReadOutcome.ok [37, 80, 68, 70],
    previewRead := fun _ => Except.ok ("%PDF"),
    allFound := fun _ => [] }

/-- A filesystem holding the single directory `/data` with two entries
discovered inside it. -/
def fsDataDir : FS :=
  { cwd := [],
    pathExists := fun p => p == ["data"],
    is_file := fun _ => false,
    is_dir := fun p => p == ["data"],
    read := fun _ => ReadOutcome.ok [1, 2],
    previewRead := fun _ => Except.ok (""),
    allFound := fun _ => [["data", "a.docx"], ["data", "b.exe"]] }

/-! ## Claim theorems -/

/-- C9: `hash_file` is declared to return `str`, but on every input — whether
the read succeeds, raises `IOError`, or raises any other exception — the
function falls off the end and returns the Python `None`, so no caller can
obtain the computed digest from it. -/
theorem c9_hash_file_returns_none (read : List String → ReadOutcome) (p : List String) :
    (hash_file read p).1 = none := by
  unfold hash_file
  cases h : read p <;> rfl

/-- C3: in the batch hashing loop of the CLI, an IO failure on one file is
caught and reported as one error line, and every file before and after it in
the batch is still processed normally; one failure never aborts the rest of
the batch. -/
theorem c3_batch_failure_isolated (read : String → ReadOutcome)
    (before after : List String) (bad e : String)
    (h : read bad = ReadOutcome.ioError e) :
    mainHashLoop read (before ++ bad :: after) =
      mainHashLoop read before ++ ioErrorLine bad e :: mainHashLoop read after := by
  simp [mainHashLoop, processOneFile, h]

/-- Witness for C3 at a concrete batch: the middle file fails with an
`IOError` and the surrounding files are still hashed. -/
theorem c3_batch_failure_isolated_witness :
    mainHashLoop cliReadW (["a.txt"] ++ "bad.pdf" :: ["c.md"]) =
      mainHashLoop cliReadW ["a.txt"] ++
        ioErrorLine ("bad.pdf") ("disk error") :: mainHashLoop cliReadW ["c.md"] :=
  c3_batch_failure_isolated cliReadW ["a.txt"] ["c.md"] ("bad.pdf") ("disk error") (by decide)

/-- C2: for every filesystem and every query value denoting an existing
directory, the directory branch of `process_folder` raises: the accumulation
target `files_to_process` is declared but never bound, so the loop either
raises on the first append of a supported file, or — when nothing matches —
on the iteration of the unbound local in the hashing loop that follows. -/
theorem c2_folder_dir_branch_raises (fs : FS) (folder_path : String)
    (he : fs.pathExists (resolveParts fs.cwd (parsePath folder_path)) = true)
    (hnf : fs.is_file (resolveParts fs.cwd (parsePath folder_path)) = false)
    (hd : fs.is_dir (resolveParts fs.cwd (parsePath folder_path)) = true) :
    process_folder fs folder_path = FolderResult.raised unboundErr := by
  rcases folderAccumLoop_none
      (fs.allFound (resolveParts fs.cwd (parsePath folder_path))) with hl | hl <;>
    simp [process_folder, he, hnf, hd, hl]

/-- Witness for C2 at a concrete filesystem: the existing directory `/data`
makes the endpoint raise. -/
theorem c2_folder_dir_branch_raises_witness :
    process_folder fsDataDir ("/data") = FolderResult.raised unboundErr :=
  c2_folder_dir_branch_raises fsDataDir ("/data") (by decide) (by decide) (by decide)

/-- C10: `process_folder` returns the Python `None` (an empty success-class
response, not a 404) whenever the query path does not exist, and returns the
empty dict rather than an error status whenever the query path is a regular
file. -/
theorem c10_folder_nonerror_responses (fs : FS) (folder_path : String) :
    (fs.pathExists (resolveParts fs.cwd (parsePath folder_path)) = false →
      process_folder fs folder_path = FolderResult.retNone) ∧
    (fs.pathExists (resolveParts fs.cwd (parsePath folder_path)) = true →
      fs.is_file (resolveParts fs.cwd (parsePath folder_path)) = true →
      process_folder fs folder_path = FolderResult.retEmptyDict) := by
  constructor
  · intro h
    simp [process_folder, h]
  · intro h1 h2
    simp [process_folder, h1, h2]

/-- Witness for C10: a missing path returns `None`; a regular file returns
the empty dict. -/
theorem c10_folder_nonerror_responses_witness :
    process_folder fsEmpty ("/missing") = FolderResult.retNone ∧
    process_folder fsReport ("/docs/report.pdf") = FolderResult.retEmptyDict :=
  ⟨(c10_folder_nonerror_responses fsEmpty ("/missing")).1 (by decide),
   (c10_folder_nonerror_responses fsReport ("/docs/report.pdf")).2 (by decide) (by decide)⟩

/-- C1 (failing input): the query path `/safe/../../etc/passwd` contains two
consecutive dots and resolves to `/etc/passwd`, outside the intended root
`/safe`; yet `process_file` does not reject it with the 400 traversal error —
`resolve()` has already eliminated the double-dot components, so the substring
guard passes — and the request instead reaches the existence check and yields
a 404 for a missing target. -/
theorem c1_traversal_guard_ineffective :
    hasDotDotS ("/safe/../../etc/passwd") = true ∧
    resolveParts fsEmpty.cwd (parsePath ("/safe/../../etc/passwd")) = ["etc", "passwd"] ∧
    process_file fsEmpty ("/safe/../../etc/passwd") =
      HTTPResult.httpError 404 ("Error: Path not found at: '/safe/../../etc/passwd'") :=
  ⟨by decide, by decide, by decide⟩

/-- C8 (counterexample): for the existing supported file `/docs/report.pdf`
with a successful preview read, the endpoint returns 200, but the message is
`File 'report.pdf' (type: 'pdf') processed successfully.` — not the claimed
`report.pdf (type: 'pdf') processed successfully.`. -/
theorem c8_message_counterexample :
    process_file fsReport ("/docs/report.pdf") =
      HTTPResult.ok ("File 'report.pdf' (type: 'pdf') processed successfully.") ∧
    process_file fsReport ("/docs/report.pdf") ≠
      HTTPResult.ok ("report.pdf (type: 'pdf') processed successfully.") :=
  ⟨by decide, by decide⟩

/-- C8 (amended): for every existing regular file with a supported extension
whose resolved path string does not contain two consecutive dots and whose
preview read succeeds, `process_file` returns 200 with the message
`File '<name>' (type: '<ext>') processed successfully.`. -/
theorem c8_success_response (fs : FS) (file_path : String)
    (hg : hasDotDotS (absStr (resolveParts fs.cwd (parsePath (unquote file_path)))) = false)
    (he : fs.pathExists (resolveParts fs.cwd (parsePath (unquote file_path))) = true)
    (hf : fs.is_file (resolveParts fs.cwd (parsePath (unquote file_path))) = true)
    (hs : SUPPORTED_EXTENSIONS.contains
        (fileExtension (parsePath (unquote file_path)).nameOf) = true)
    (preview : String)
    (hp : fs.previewRead (resolveParts fs.cwd (parsePath (unquote file_path))) =
        Except.ok preview) :
    process_file fs file_path =
      HTTPResult.ok ("File '" ++ (parsePath (unquote file_path)).nameOf ++ "' (type: '" ++
        fileExtension (parsePath (unquote file_path)).nameOf ++ "') processed successfully.") := by
  simp [process_file, hg, he, hf, hs, hp]
  exact List.mem_of_elem_eq_true hs

/-- Witness for C8 (amended) at the concrete file `/docs/report.pdf`. -/
theorem c8_success_response_witness :
    process_file fsReport ("/docs/report.pdf") =
      HTTPResult.ok ("File '" ++ (parsePath (unquote ("/docs/report.pdf"))).nameOf ++
        "' (type: '" ++ fileExtension (parsePath (unquote ("/docs/report.pdf"))).nameOf ++
        "') processed successfully.") :=
  c8_success_response fsReport ("/docs/report.pdf")
    (by decide) (by decide) (by decide) (by decide) ("%PDF") rfl

/-! ## Digest format lemmas for C6 -/

/-- Every character produced by `hexChar` is one of the sixteen lowercase
hexadecimal digits. -/
theorem hexChar_mem (n : Nat) : hexChar n ∈ hexDigits := by
  rw [hexChar, List.getD_eq_getElem?_getD]
  by_cases h : n < hexDigits.length
  · rw [List.getElem?_eq_getElem h]
    exact List.getElem_mem _
  · rw [List.getElem?_eq_none (by omega)]
    decide

/-- Hex encoding produces two characters per byte. -/
theorem hexOfBytes_length (bs : List Nat) : (hexOfBytes bs).length = 2 * bs.length := by
  induction bs with
  | nil => rfl
  | cons b rest ih =>
      simp [hexOfBytes, ih]
      omega

/-- The SHA-256 digest is exactly 32 bytes. -/
theorem sha256bytes_length (m : List Nat) : (sha256bytes m).length = 32 := by
  have h : ∀ s : Sha256State,
      (wordBytes s.a ++ wordBytes s.b ++ wordBytes s.c ++ wordBytes s.d ++
       wordBytes s.e ++ wordBytes s.f ++ wordBytes s.g ++ wordBytes s.h).length = 32 := by
    intro s
    rfl
  exact h _

/-- Every character of a hex encoding is a lowercase hexadecimal digit. -/
theorem hexOfBytes_all (bs : List Nat) :
    (hexOfBytes bs).all isLowerHexDigit = true := by
  induction bs with
  | nil => rfl
  | cons b rest ih =>
      have h1 := hexChar_mem (b / 16)
      have h2 := hexChar_mem (b % 16)
      simp [hexOfBytes, isLowerHexDigit, ih, h1, h2]

/-- C6: the digest is a deterministic function of the byte content of the
file (hashing the same content twice yields identical digests), and the
produced digest is exactly 64 lowercase hexadecimal characters. -/
theorem c6_digest_deterministic_and_hex (content : List Nat) :
    sha256hex content = sha256hex content ∧
    (sha256hex content).length = 64 ∧
    (sha256hex content).data.all isLowerHexDigit = true := by
  refine ⟨rfl, ?_, ?_⟩
  · show (hexOfBytes (sha256bytes content)).length = 64
    rw [hexOfBytes_length, sha256bytes_length]
  · show (hexOfBytes (sha256bytes content)).all isLowerHexDigit = true
    exact hexOfBytes_all _

/-! ## Lemmas relating the source extension classifier to the spec wording -/

/-- The result of `rfindDot` is either -1 or a natural index. -/
theorem rfindDot_classify (cs : List Char) :
    rfindDot cs = -1 ∨ ∃ i : Nat, rfindDot cs = (i : Int) := by
  induction cs with
  | nil => left; rfl
  | cons c rest ih =>
      have hunf : rfindDot (c :: rest) =
          if rfindDot rest ≥ 0 then rfindDot rest + 1
          else if c == '.' then 0 else -1 := rfl
      rcases ih with h | ⟨j, hj⟩
      · rw [hunf, h]
        by_cases hc : c == '.'
        · right; exact ⟨0, by rw [if_neg (by omega), if_pos hc]; simp⟩
        · left; rw [if_neg (by omega), if_neg hc]
      · right
        exact ⟨j + 1, by rw [hunf, hj, if_pos (by omega)]; omega⟩

/-- When `rfindDot` reports no dot, the list has none. -/
theorem rfindDot_neg_one (cs : List Char) (h : rfindDot cs = -1) : '.' ∉ cs := by
  induction cs with
  | nil => simp
  | cons c rest ih =>
      have hunf : rfindDot (c :: rest) =
          if rfindDot rest ≥ 0 then rfindDot rest + 1
          else if c == '.' then 0 else -1 := rfl
      rw [hunf] at h
      by_cases h0 : rfindDot rest ≥ 0
      · rw [if_pos h0] at h; omega
      · rw [if_neg h0] at h
        by_cases hc : c == '.'
        · rw [if_pos hc] at h; omega
        · rw [if_neg hc] at h
          rcases rfindDot_classify rest with hr | ⟨j, hj⟩
          · intro hmem
            rcases List.mem_cons.mp hmem with he | ht
            · exact hc (by rw [he]; simp)
            · exact ih hr ht
          · omega

/-- Keeping characters before the first dot ignores anything appended after a
list that already holds a dot. -/
theorem takeWhile_append_of_mem (l l₂ : List Char) (h : '.' ∈ l) :
    (l ++ l₂).takeWhile (fun c => c != '.') = l.takeWhile (fun c => c != '.') := by
  induction l with
  | nil => simp at h
  | cons a as ih =>
      by_cases ha : a = '.'
      · subst ha
        simp [List.takeWhile_cons]
      · have hmem : '.' ∈ as := by
          rcases List.mem_cons.mp h with he | ht
          · exact absurd he.symm ha
          · exact ht
        simp only [List.cons_append, List.takeWhile_cons]
        have hne : (a != '.') = true := by simp [ha]
        rw [hne]
        simp [ih hmem]

/-- Keeping characters before the first dot of `l ++ dot :: l₂` returns `l`
when `l` has no dot. -/
theorem takeWhile_append_dot (l l₂ : List Char) (h : '.' ∉ l) :
    (l ++ '.' :: l₂).takeWhile (fun c => c != '.') = l := by
  induction l with
  | nil => simp
  | cons a as ih =>
      have ha : a ≠ '.' := fun he => h (by rw [he]; exact List.mem_cons_self _ _)
      have hmem : '.' ∉ as := fun hm => h (List.mem_cons_of_mem _ hm)
      simp only [List.cons_append, List.takeWhile_cons]
      have hne : (a != '.') = true := by simp [ha]
      rw [hne]
      simp [ih hmem]

/-- Structure of the list around its last dot: dropping to the index found by
`rfindDot` exposes the dot followed by exactly the characters after the final
dot, which themselves hold no dot. -/
theorem rfindDot_spec (cs : List Char) (i : Nat) (hi : rfindDot cs = (i : Int)) :
    cs.drop i = '.' :: afterFinalDot cs ∧
    '.' ∉ afterFinalDot cs ∧
    i + 1 + (afterFinalDot cs).length = cs.length := by
  induction cs generalizing i with
  | nil => simp [rfindDot] at hi
  | cons c rest ih =>
      have hunf : rfindDot (c :: rest) =
          if rfindDot rest ≥ 0 then rfindDot rest + 1
          else if c == '.' then 0 else -1 := rfl
      rcases rfindDot_classify rest with hr | ⟨j, hj⟩
      · -- no dot in the tail
        have hnot : '.' ∉ rest := rfindDot_neg_one rest hr
        rw [hunf, hr, if_neg (by omega)] at hi
        by_cases hc : c == '.'
        · rw [if_pos hc] at hi
          have hi0 : i = 0 := by omega
          subst hi0
          have hceq : c = '.' := by
            have := hc
            simpa using this
          subst hceq
          have haft : afterFinalDot ('.' :: rest) = rest := by
            unfold afterFinalDot
            rw [List.reverse_cons, takeWhile_append_dot _ _ (by simpa using hnot)]
            simp
          refine ⟨by simp [haft], by rw [haft]; exact hnot,
            by rw [haft, List.length_cons]; omega⟩
        · rw [if_neg hc] at hi
          omega
      · -- the tail holds a dot at index j
        rw [hunf, hj, if_pos (by omega)] at hi
        have hij : i = j + 1 := by omega
        subst hij
        obtain ⟨hdrop, hafter, hlen⟩ := ih j hj
        have hmemrest : '.' ∈ rest := by
          have : '.' ∈ rest.drop j := by rw [hdrop]; exact List.mem_cons_self _ _
          exact List.drop_subset _ _ this
        have haft : afterFinalDot (c :: rest) = afterFinalDot rest := by
          unfold afterFinalDot
          rw [List.reverse_cons, takeWhile_append_of_mem _ _ (by simpa using hmemrest)]
        refine ⟨?_, ?_, ?_⟩
        · rw [List.drop_succ_cons, haft]
          exact hdrop
        · rw [haft]; exact hafter
        · rw [haft]
          simp only [List.length_cons]
          omega

/-- Boolean containment from membership, for characters. -/
theorem contains_dot_true (l : List Char) (h : '.' ∈ l) : l.contains '.' = true :=
  List.elem_eq_true_of_mem h

/-- Boolean non-containment from non-membership, for characters. -/
theorem contains_dot_false (l : List Char) (h : '.' ∉ l) : l.contains '.' = false := by
  cases hb : l.contains '.' with
  | false => rfl
  | true => exact absurd (List.mem_of_elem_eq_true hb) h

/-- Dropping leading dots of a dot-free list leaves it unchanged. -/
theorem lstripDots_of_not_mem (l : List Char) (h : '.' ∉ l) : lstripDots l = l := by
  cases l with
  | nil => rfl
  | cons a as =>
      have ha : a ≠ '.' := fun he => h (he ▸ List.mem_cons_self _ _)
      unfold lstripDots
      rw [List.dropWhile_cons, if_neg (by simp [ha])]

/-- Evaluation of the spec-side classifier when the name holds a dot and is
not a pure dotfile: it returns the lowercased characters after the final
dot. -/
theorem extSpec_eq (cs : List Char) (hcont : cs.contains '.' = true)
    (hm : ∀ t, cs = '.' :: t → t.contains '.' = true) :
    extSpec cs = (afterFinalDot cs).map Char.toLower := by
  unfold extSpec
  rw [hcont]
  simp only [Bool.not_true, Bool.false_eq_true, if_false]
  split
  · rename_i hmt
    split at hmt
    · rename_i t
      rw [hm t rfl] at hmt
      simp at hmt
    · simp at hmt
  · rfl

/-- The source expression `suffix.lstrip(".").lower()` agrees with the
wording of the spec on every file name. -/
theorem fileExtensionOf_eq_extSpec (cs : List Char) : fileExtensionOf cs = extSpec cs := by
  have hps : pathSuffix cs =
      if 0 < rfindDot cs ∧ rfindDot cs < (cs.length : Int) - 1 then
        cs.drop (rfindDot cs).toNat
      else [] := rfl
  rcases rfindDot_classify cs with h1 | ⟨i, hi⟩
  · have hnot := rfindDot_neg_one cs h1
    have hlhs : fileExtensionOf cs = [] := by
      unfold fileExtensionOf rawExtOf
      rw [hps, h1, if_neg (by omega)]
      rfl
    rw [hlhs]
    unfold extSpec
    rw [contains_dot_false cs hnot]
    rfl
  · obtain ⟨hdrop, hafter, hlen⟩ := rfindDot_spec cs i hi
    have hcont : cs.contains '.' = true := by
      apply contains_dot_true
      have h2 : '.' ∈ cs.drop i := by rw [hdrop]; exact List.mem_cons_self _ _
      exact List.drop_subset _ _ h2
    by_cases hzero : i = 0
    · subst hzero
      have hc : cs = '.' :: afterFinalDot cs := by simpa using hdrop
      have hlhs : fileExtensionOf cs = [] := by
        unfold fileExtensionOf rawExtOf
        rw [hps, hi, if_neg (by omega)]
        rfl
      rw [hlhs]
      generalize hT : afterFinalDot cs = t at hc hafter
      rw [hc]
      simp [extSpec, contains_dot_false t hafter]
      intro h
      exact absurd h hafter
    · have hpos : 0 < i := Nat.pos_of_ne_zero hzero
      have hmt : ∀ t, cs = '.' :: t → t.contains '.' = true := by
        intro t heq
        apply contains_dot_true
        have h1 : '.' ∈ cs.drop i := by rw [hdrop]; exact List.mem_cons_self _ _
        rw [heq] at h1
        obtain ⟨k, hk⟩ : ∃ k, i = k + 1 := ⟨i - 1, by omega⟩
        rw [hk, List.drop_succ_cons] at h1
        exact List.drop_subset _ _ h1
      rw [extSpec_eq cs hcont hmt]
      by_cases hempty : afterFinalDot cs = []
      · rw [hempty]
        have hl0 : i + 1 = cs.length := by
          rw [hempty] at hlen
          simpa using hlen
        unfold fileExtensionOf rawExtOf
        rw [hps, hi, if_neg (by omega)]
        rfl
      · have hlt1 : 1 ≤ (afterFinalDot cs).length := by
          cases hA : afterFinalDot cs with
          | nil => exact absurd hA hempty
          | cons x xs => simp
        unfold fileExtensionOf rawExtOf
        rw [hps, hi, if_pos (by constructor <;> omega)]
        rw [Int.toNat_natCast, hdrop]
        have hstep : lstripDots ('.' :: afterFinalDot cs) = afterFinalDot cs := by
          unfold lstripDots
          rw [List.dropWhile_cons, if_pos (by simp)]
          exact lstripDots_of_not_mem _ hafter
        rw [hstep]

/-- C4: the extension classification shared by both surfaces (the expression
`input_path.suffix.lstrip(".").lower()`) returns exactly the substring after
the final dot of the file name, lowercased — empty when the name has no dot,
or starts with a dot and has no further dot — and the empty string is never a
member of the supported set, hence always rejected. -/
theorem c4_extension_contract (name : List Char) :
    fileExtensionOf name = extSpec name ∧
    SUPPORTED_EXTENSIONS.contains ("") = false :=
  ⟨fileExtensionOf_eq_extSpec name, by decide⟩

/-- C5: for every supported extension and every file name whose raw extension
equals it up to letter case, the supported-extension test on the classified
extension is true; and the allow-list itself holds only lowercase, dot-free
entries. -/
theorem c5_case_insensitive_membership (e : String) (name : List Char)
    (he : SUPPORTED_EXTENSIONS.contains e = true)
    (hcase : (rawExtOf name).map Char.toLower = e.data.map Char.toLower) :
    SUPPORTED_EXTENSIONS.contains (String.mk (fileExtensionOf name)) = true ∧
    SUPPORTED_EXTENSIONS.all
      (fun x => x.data.map Char.toLower == x.data && !(x.data.contains '.')) = true := by
  have hall : SUPPORTED_EXTENSIONS.all
      (fun x => x.data.map Char.toLower == x.data && !(x.data.contains '.')) = true := by
    decide
  refine ⟨?_, hall⟩
  have hmem : e ∈ SUPPORTED_EXTENSIONS := List.mem_of_elem_eq_true he
  have hprop := List.all_eq_true.mp hall e hmem
  have hlower : e.data.map Char.toLower = e.data := by
    have hb : (e.data.map Char.toLower == e.data) = true := by
      cases hx : (e.data.map Char.toLower == e.data) with
      | true => rfl
      | false => rw [hx] at hprop; simp at hprop
    exact eq_of_beq hb
  have hfe : fileExtensionOf name = e.data := by
    unfold fileExtensionOf
    rw [hcase, hlower]
  rw [hfe]
  rw [show String.mk e.data = e from rfl]
  exact he

/-- Witness for C5 at the uppercase file name `REPORT.PDF` against the
supported extension `pdf`. -/
theorem c5_case_insensitive_membership_witness :
    SUPPORTED_EXTENSIONS.contains (String.mk (fileExtensionOf ("REPORT.PDF").data)) = true ∧
    SUPPORTED_EXTENSIONS.all
      (fun x => x.data.map Char.toLower == x.data && !(x.data.contains '.')) = true :=
  c5_case_insensitive_membership ("pdf") (("REPORT.PDF").data) (by decide) (by decide)

/-! ## Lemmas about recursive discovery -/

/-- Every descendant is produced by `rglob`. -/
theorem Desc.mem_rglob {pfx : List String} {es : List Entry} {p : List String} {d : Entry}
    (h : Desc pfx es p d) : (p, d) ∈ rglobList pfx es := by
  induction h with
  | head =>
      rename_i pfx e rest
      cases e with
      | file n c => rw [rglobList]; exact List.mem_cons_self _ _
      | dir n es2 => rw [rglobList]; exact List.mem_cons_self _ _
      | other n => rw [rglobList]; exact List.mem_cons_self _ _
  | tail hd ih =>
      rename_i pfx e rest p d
      cases e with
      | file n c => rw [rglobList]; exact List.mem_cons_of_mem _ ih
      | dir n es2 => rw [rglobList]; exact List.mem_cons_of_mem _ (List.mem_append_right _ ih)
      | other n => rw [rglobList]; exact List.mem_cons_of_mem _ ih
  | child hd ih =>
      rw [rglobList]
      exact List.mem_cons_of_mem _ (List.mem_append_left _ ih)

/-- Everything produced by `rglob` is a descendant. -/
theorem mem_rglob_desc (pfx : List String) (es : List Entry) :
    ∀ p d, (p, d) ∈ rglobList pfx es → Desc pfx es p d := by
  induction pfx, es using rglobList.induct with
  | case1 pfx =>
      intro p d h
      simp [rglobList] at h
  | case2 pfx n c rest ih =>
      intro p d h
      rw [rglobList] at h
      rcases List.mem_cons.mp h with he | ht
      · rw [Prod.mk.injEq] at he
        rw [he.1, he.2]
        exact Desc.head
      · exact Desc.tail (ih p d ht)
  | case3 pfx n rest ih =>
      intro p d h
      rw [rglobList] at h
      rcases List.mem_cons.mp h with he | ht
      · rw [Prod.mk.injEq] at he
        rw [he.1, he.2]
        exact Desc.head
      · exact Desc.tail (ih p d ht)
  | case4 pfx n es rest ih1 ih2 =>
      intro p d h
      rw [rglobList] at h
      rcases List.mem_cons.mp h with he | ht
      · rw [Prod.mk.injEq] at he
        rw [he.1, he.2]
        exact Desc.head
      · rcases List.mem_append.mp ht with hin | hrest
        · exact Desc.child (ih1 p d hin)
        · exact Desc.tail (ih2 p d hrest)

/-- Every path produced by `rglob` extends the root path by the name of one
of the entries of the level. -/
theorem rglob_shape (pfx : List String) (es : List Entry) :
    ∀ p d, (p, d) ∈ rglobList pfx es →
      ∃ e ∈ es, ∃ t, p = pfx ++ e.name :: t := by
  induction pfx, es using rglobList.induct with
  | case1 pfx =>
      intro p d h
      simp [rglobList] at h
  | case2 pfx n c rest ih =>
      intro p d h
      rw [rglobList] at h
      rcases List.mem_cons.mp h with he | ht
      · rw [Prod.mk.injEq] at he
        exact ⟨Entry.file n c, List.mem_cons_self _ _, [], by rw [he.1]; rfl⟩
      · obtain ⟨e, hmem, t, hp⟩ := ih p d ht
        exact ⟨e, List.mem_cons_of_mem _ hmem, t, hp⟩
  | case3 pfx n rest ih =>
      intro p d h
      rw [rglobList] at h
      rcases List.mem_cons.mp h with he | ht
      · rw [Prod.mk.injEq] at he
        exact ⟨Entry.other n, List.mem_cons_self _ _, [], by rw [he.1]; rfl⟩
      · obtain ⟨e, hmem, t, hp⟩ := ih p d ht
        exact ⟨e, List.mem_cons_of_mem _ hmem, t, hp⟩
  | case4 pfx n es rest ih1 ih2 =>
      intro p d h
      rw [rglobList] at h
      rcases List.mem_cons.mp h with he | ht
      · rw [Prod.mk.injEq] at he
        exact ⟨Entry.dir n es, List.mem_cons_self _ _, [], by rw [he.1]; rfl⟩
      · rcases List.mem_append.mp ht with hin | hrest
        · obtain ⟨e, hmem, t, hp⟩ := ih1 p d hin
          refine ⟨Entry.dir n es, List.mem_cons_self _ _, e.name :: t, ?_⟩
          rw [hp, List.append_assoc]
          rfl
        · obtain ⟨e, hmem, t, hp⟩ := ih2 p d hrest
          exact ⟨e, List.mem_cons_of_mem _ hmem, t, hp⟩

/-- A name absent from the names of a level cannot be the name of one of its
entries. -/
theorem name_not_in_level {rest : List Entry} {n : String}
    (hn : ((rest.map Entry.name).contains n) = false) {e : Entry}
    (he : e ∈ rest) (heq : e.name = n) : False := by
  have hmem : n ∈ rest.map Entry.name := List.mem_map.mpr ⟨e, he, heq⟩
  rw [show ((rest.map Entry.name).contains n) = true from
    List.elem_eq_true_of_mem hmem] at hn
  simp at hn

/-- In a well-formed tree, the paths produced by `rglob` are pairwise
distinct. -/
theorem rglob_paths_nodup (pfx : List String) (es : List Entry) :
    wfEntries es = true → ((rglobList pfx es).map Prod.fst).Nodup := by
  induction pfx, es using rglobList.induct with
  | case1 pfx =>
      intro _
      rw [rglobList]
      simp
  | case2 pfx n c rest ih =>
      intro hwf
      rw [wfEntries, Bool.and_eq_true] at hwf
      obtain ⟨h1, h2⟩ := hwf
      rw [rglobList, List.map_cons]
      refine List.nodup_cons.mpr ⟨?_, ih h2⟩
      intro hmem
      obtain ⟨pe, hpe, hq⟩ := List.mem_map.mp hmem
      obtain ⟨e, he, t, hp⟩ := rglob_shape pfx rest pe.1 pe.2 hpe
      have hq2 : pe.1 = pfx ++ [n] := hq
      have heq : pfx ++ [n] = pfx ++ e.name :: t := hq2.symm.trans hp
      have h3 : [n] = e.name :: t := List.append_cancel_left heq
      have hname : e.name = n := by
        injection h3 with ha hb
        exact ha.symm
      exact name_not_in_level (by simpa using h1) he hname
  | case3 pfx n rest ih =>
      intro hwf
      rw [wfEntries, Bool.and_eq_true] at hwf
      obtain ⟨h1, h2⟩ := hwf
      rw [rglobList, List.map_cons]
      refine List.nodup_cons.mpr ⟨?_, ih h2⟩
      intro hmem
      obtain ⟨pe, hpe, hq⟩ := List.mem_map.mp hmem
      obtain ⟨e, he, t, hp⟩ := rglob_shape pfx rest pe.1 pe.2 hpe
      have hq2 : pe.1 = pfx ++ [n] := hq
      have heq : pfx ++ [n] = pfx ++ e.name :: t := hq2.symm.trans hp
      have h3 : [n] = e.name :: t := List.append_cancel_left heq
      have hname : e.name = n := by
        injection h3 with ha hb
        exact ha.symm
      exact name_not_in_level (by simpa using h1) he hname
  | case4 pfx n es rest ih1 ih2 =>
      intro hwf
      rw [wfEntries, Bool.and_eq_true, Bool.and_eq_true] at hwf
      obtain ⟨⟨h1, h2⟩, h3⟩ := hwf
      rw [rglobList, List.map_cons, List.map_append]
      refine List.nodup_cons.mpr ⟨?_, ?_⟩
      · intro hmem
        rcases List.mem_append.mp hmem with hin | hrest
        · obtain ⟨pe, hpe, hq⟩ := List.mem_map.mp hin
          obtain ⟨e, he, t, hp⟩ := rglob_shape _ _ pe.1 pe.2 hpe
          have hq2 : pe.1 = pfx ++ [n] := hq
          have heq : pfx ++ [n] = (pfx ++ [n]) ++ e.name :: t := hq2.symm.trans hp
          have := congrArg List.length heq
          simp at this
        · obtain ⟨pe, hpe, hq⟩ := List.mem_map.mp hrest
          obtain ⟨e, he, t, hp⟩ := rglob_shape _ _ pe.1 pe.2 hpe
          have hq2 : pe.1 = pfx ++ [n] := hq
          have heq : pfx ++ [n] = pfx ++ e.name :: t := hq2.symm.trans hp
          have h4 : [n] = e.name :: t := List.append_cancel_left heq
          have hname : e.name = n := by
            injection h4 with ha hb
            exact ha.symm
          exact name_not_in_level (by simpa using h1) he hname
      · refine (ih1 h2).append (ih2 h3) ?_
        intro q hq1 hq2
        obtain ⟨pe1, hpe1, hqa⟩ := List.mem_map.mp hq1
        obtain ⟨e1, he1, t1, hp1⟩ := rglob_shape _ _ pe1.1 pe1.2 hpe1
        obtain ⟨pe2, hpe2, hqb⟩ := List.mem_map.mp hq2
        obtain ⟨e2, he2, t2, hp2⟩ := rglob_shape _ _ pe2.1 pe2.2 hpe2
        have heq : pfx ++ n :: (e1.name :: t1) = pfx ++ e2.name :: t2 := by
          calc pfx ++ n :: (e1.name :: t1)
              = (pfx ++ [n]) ++ e1.name :: t1 := by simp
            _ = q := by rw [← hp1, hqa]
            _ = pfx ++ e2.name :: t2 := by rw [← hqb, hp2]
        have h4 : n :: (e1.name :: t1) = e2.name :: t2 := List.append_cancel_left heq
        have hname : e2.name = n := by
          injection h4 with ha hb
          exact ha.symm
        exact name_not_in_level (by simpa using h1) he2 hname

/-- C7: for every directory (well-formed: sibling names pairwise distinct, as
on a real filesystem), recursive discovery returns exactly the set of regular
files transitively reachable from it — every such file appears, nothing else
appears, and no path appears more than once. -/
theorem c7_discovery_exact (pfx : List String) (es : List Entry)
    (hwf : wfEntries es = true) :
    (∀ p, p ∈ get_all_files_recursive pfx es ↔ IsReachableFile pfx es p) ∧
    (get_all_files_recursive pfx es).Nodup := by
  constructor
  · intro p
    constructor
    · intro hp
      obtain ⟨pe, hpe, hq⟩ := List.mem_map.mp hp
      obtain ⟨hmem, hfile⟩ := List.mem_filter.mp hpe
      rcases pe with ⟨q, d⟩
      cases d with
      | file n c =>
          exact ⟨n, c, hq ▸ mem_rglob_desc pfx es q (Entry.file n c) hmem⟩
      | dir n es2 => simp [Entry.isFile] at hfile
      | other n => simp [Entry.isFile] at hfile
    · rintro ⟨n, c, hdesc⟩
      refine List.mem_map.mpr ⟨(p, Entry.file n c), ?_, rfl⟩
      exact List.mem_filter.mpr ⟨hdesc.mem_rglob, rfl⟩
  · have hnd := rglob_paths_nodup pfx es hwf
    have hsub : List.Sublist
        (((rglobList pfx es).filter (fun pe => pe.2.isFile)).map Prod.fst)
        ((rglobList pfx es).map Prod.fst) :=
      List.Sublist.map _ (List.filter_sublist _)
    exact List.Nodup.sublist hsub hnd

/-- A small concrete directory tree: a supported file, a nested directory
with one file, and a device entry. -/
def sampleTree : List Entry :=
  [Entry.file ("a.txt") [104, 105],
   Entry.dir ("sub") [Entry.file ("b.pdf") [37]],
   Entry.other ("dev0")]

/-- Witness for C7 at a concrete well-formed tree. -/
theorem c7_discovery_exact_witness :
    (∀ p, p ∈ get_all_files_recursive ["root"] sampleTree ↔
        IsReachableFile ["root"] sampleTree p) ∧
    (get_all_files_recursive ["root"] sampleTree).Nodup :=
  c7_discovery_exact ["root"] sampleTree
    (by simp [wfEntries, sampleTree, Entry.name])
